import Mathlib

/-!
Verification of the schema-builder core (`src/src/components/Schemabuilder.jsx`).

The file shallowly embeds the field-tree data model and the schema projector:
`createDefaultField`, `generateSchema` (the projector), the root-level state
operations `updateField` / `removeField` of the `SchemaBuilder` component, and
the per-row callbacks `handleChildUpdate` / `handleChildRemove` of `FieldRow`.
JavaScript objects built by `generateSchema` are embedded as association
lists kept in ECMAScript property-enumeration order, with JS
property-assignment semantics (`insertJs`): array-index-like keys sort
numerically ahead of plain string keys, which keep creation order.
-/

namespace SchemaBuilder

/-- JSON-compatible values produced by the projector: strings, numbers, and
objects.  An object is a list of key/value entries kept in ECMAScript
property-enumeration order (array-index-like keys first, in ascending numeric
order, then plain string keys in creation order) — the order `Object.keys`
and `JSON.stringify` observe. -/
inductive JValue : Type where
  | str : String → JValue
  | num : Int → JValue
  | obj : List (String × JValue) → JValue

/-- A node of the field tree, mirroring the object shape
`{ id, keyName, type, children }` built by `createDefaultField` and the
initial `useState` value.  The `type` is kept as a raw string because the
source stores it as one ("string", "number", "nested", or anything else a
transient editor state may hold). -/
inductive Field : Type where
  | mk (id : Nat) (keyName : String) (type : String) (children : List Field) : Field

/-- Projection `field.id`. -/
def Field.id : Field → Nat
  | .mk i _ _ _ => i

/-- Projection `field.keyName`. -/
def Field.keyName : Field → String
  | .mk _ k _ _ => k

/-- Projection `field.type`. -/
def Field.type : Field → String
  | .mk _ _ t _ => t

/-- Projection `field.children`. -/
def Field.children : Field → List Field
  | .mk _ _ _ cs => cs

/-- Read a nonempty digit string as a natural number, `none` on any
non-digit character. -/
def digitsToNat? : List Char → Nat → Option Nat
  | [], acc => some acc
  | c :: cs, acc =>
    if c.isDigit then digitsToNat? cs (acc * 10 + (c.toNat - 48)) else none

/-- The ECMAScript array-index reading of a property key: a canonical
numeric string (nonempty, all digits, no leading zero except "0" itself)
whose value is below 2^32 - 1.  Such keys are enumerated ahead of all plain
string keys, in ascending numeric order. -/
def keyIndex? (k : String) : Option Nat :=
  match k.toList with
  | [] => none
  | c :: cs =>
    if c = '0' ∧ cs ≠ [] then none
    else match digitsToNat? (c :: cs) 0 with
      | none => none
      | some n => if n < 4294967295 then some n else none

/-- Place a fresh array-index key of numeric value `n` in enumeration order:
after the existing array-index keys with smaller value and before everything
else (larger array-index keys and all plain string keys). -/
def insertIdx (n : Nat) (k : String) (v : JValue) :
    List (String × JValue) → List (String × JValue)
  | [] => [(k, v)]
  | p :: ps =>
    match keyIndex? p.1 with
    | some m => if m < n then p :: insertIdx n k v ps else (k, v) :: p :: ps
    | none => (k, v) :: p :: ps

/-- JS property assignment `schema[k] = v`, with entries kept in ECMAScript
property-enumeration order: assigning to an existing key overwrites its value
at its current position; a fresh array-index-like key (such as "1") is placed
among the index keys in ascending numeric order, ahead of every plain string
key; a fresh plain string key is appended at the end (creation order). -/
def insertJs (schema : List (String × JValue)) (k : String) (v : JValue) :
    List (String × JValue) :=
  if k ∈ schema.map Prod.fst then
    schema.map (fun p => if p.1 = k then (k, v) else p)
  else
    match keyIndex? k with
    | some n => insertIdx n k v schema
    | none => schema ++ [(k, v)]

mutual

/-- The `fields.forEach` loop of `generateSchema`, with the object built so
far as the accumulator `schema`. -/
def generateSchemaAux (schema : List (String × JValue)) :
    List Field → List (String × JValue)
  | [] => schema
  | f :: fs => generateSchemaAux (projectStep schema f) fs

/-- The body of the `forEach` callback in `generateSchema`: skip a field
whose `keyName` is falsy (the empty string), otherwise switch on `field.type`
("string", "number", "nested"); the `default` arm of the switch emits
nothing. -/
def projectStep (schema : List (String × JValue)) :
    Field → List (String × JValue)
  | .mk _ k t cs =>
    if k = "" then schema
    else match t with
      | "string" => insertJs schema k (JValue.str "String (default)")
      | "number" => insertJs schema k (JValue.num 0)
      | "nested" => insertJs schema k (JValue.obj (generateSchemaAux [] cs))
      | _ => schema

end

/-- `generateSchema(fields)` from the source: recursively transforms the
fields array into a JSON object, starting from the empty object `{}`. -/
def generateSchema (fields : List Field) : List (String × JValue) :=
  generateSchemaAux [] fields

/-- `createDefaultField()` from the source.  Its id is
`Date.now() + Math.random()`; the ambient clock reading and the random draw
are made explicit arguments `now` and `rand`, and the id is their sum as in
the source. -/
def createDefaultField (now rand : Nat) : Field :=
  Field.mk (now + rand) "" "string" []

/-- `updateField(updatedField)` of the `SchemaBuilder` component:
`fields.map(f => f.id === updatedField.id ? updatedField : f)` over the
root-level sequence. -/
def updateField (fields : List Field) (updatedField : Field) : List Field :=
  fields.map fun f => if f.id = updatedField.id then updatedField else f

/-- `removeField(fieldId)` of the `SchemaBuilder` component:
`fields.filter(f => f.id !== fieldId)` over the root-level sequence. -/
def removeField (fields : List Field) (fieldId : Nat) : List Field :=
  fields.filter fun f => f.id ≠ fieldId

/-- Rebuild a node with new children: the spread `{ ...field, children }`
used by the `FieldRow` callbacks. -/
def Field.withChildren : Field → List Field → Field
  | .mk i k t _, cs => .mk i k t cs

/-- `handleChildUpdate(updatedChild)` of `FieldRow`: replaces the matching
child in this node's `children` and rebuilds the node, which `FieldRow` then
hands to its own `onUpdate`. -/
def handleChildUpdate (field updatedChild : Field) : Field :=
  field.withChildren
    (field.children.map fun c => if c.id = updatedChild.id then updatedChild else c)

/-- `handleChildRemove(childId)` of `FieldRow`: filters the matching child
out of this node's `children` and rebuilds the node. -/
def handleChildRemove (field : Field) (childId : Nat) : Field :=
  field.withChildren (field.children.filter fun c => c.id ≠ childId)

/-- `addField()` of the `SchemaBuilder` component: appends a freshly created
default field to the root sequence. -/
def addField (fields : List Field) (now rand : Nat) : List Field :=
  fields ++ [createDefaultField now rand]

mutual

/-- Specification-level observer: every id occurring in a forest, in
preorder. -/
def allIds : List Field → List Nat
  | [] => []
  | f :: fs => fieldIds f ++ allIds fs

/-- Specification-level observer: every id occurring in one node's subtree,
in preorder. -/
def fieldIds : Field → List Nat
  | .mk i _ _ cs => i :: allIds cs

end

mutual

/-- Specification-level observer: locate the first node (in preorder) with
the given id, anywhere in the forest. -/
def findById : List Field → Nat → Option Field
  | [], _ => none
  | f :: fs, i =>
    match findInField f i with
    | some r => some r
    | none => findById fs i

/-- Specification-level observer: locate a node with the given id within one
node's subtree. -/
def findInField : Field → Nat → Option Field
  | .mk j k t cs, i =>
    if j = i then some (.mk j k t cs) else findById cs i

end

/-- Specification-level observer: the value bound to key `k` in an
insertion-ordered object (the first entry with that key; `insertJs` keeps at
most one entry per key, so it is the entry). -/
def lookupKey (k : String) : List (String × JValue) → Option JValue
  | [] => none
  | p :: ps => if p.1 = k then some p.2 else lookupKey k ps

/-- Specification-level observer: the value a single field contributes to the
projection, `none` when the field is skipped (empty name or unrecognized
type). -/
def fieldValue (f : Field) : Option JValue :=
  if f.keyName = "" then none
  else if f.type = "string" then some (JValue.str "String (default)")
  else if f.type = "number" then some (JValue.num 0)
  else if f.type = "nested" then some (JValue.obj (generateSchema f.children))
  else none

/-- Specification-level observer: the value contributed by the last field of
the sequence that emits key `k`, if any. -/
def lastEmitted (k : String) : List Field → Option JValue
  | [] => none
  | f :: fs =>
    match lastEmitted k fs with
    | some v => some v
    | none => if f.keyName = k then fieldValue f else none

/-- Specification-level observer: the key names of the fields that emit a
key (non-empty name, recognized type), in sequence order. -/
def emittedKeys : List Field → List String
  | [] => []
  | f :: fs =>
    if (fieldValue f).isSome then f.keyName :: emittedKeys fs else emittedKeys fs

/-! ### Basic lemmas about the embedded definitions -/

@[simp]
theorem Field.id_mk (i : Nat) (k t : String) (cs : List Field) :
    (Field.mk i k t cs).id = i := rfl

@[simp]
theorem Field.keyName_mk (i : Nat) (k t : String) (cs : List Field) :
    (Field.mk i k t cs).keyName = k := rfl

@[simp]
theorem Field.type_mk (i : Nat) (k t : String) (cs : List Field) :
    (Field.mk i k t cs).type = t := rfl

@[simp]
theorem Field.children_mk (i : Nat) (k t : String) (cs : List Field) :
    (Field.mk i k t cs).children = cs := rfl

@[simp]
theorem Field.withChildren_mk (i : Nat) (k t : String) (cs cs' : List Field) :
    (Field.mk i k t cs).withChildren cs' = Field.mk i k t cs' := rfl

@[simp]
theorem Field.id_withChildren (f : Field) (cs : List Field) :
    (f.withChildren cs).id = f.id := by cases f; rfl

@[simp]
theorem Field.keyName_withChildren (f : Field) (cs : List Field) :
    (f.withChildren cs).keyName = f.keyName := by cases f; rfl

@[simp]
theorem Field.type_withChildren (f : Field) (cs : List Field) :
    (f.withChildren cs).type = f.type := by cases f; rfl

@[simp]
theorem Field.children_withChildren (f : Field) (cs : List Field) :
    (f.withChildren cs).children = cs := by cases f; rfl

theorem map_fst_insertJs_of_mem {schema : List (String × JValue)} {k : String}
    (v : JValue) (h : k ∈ schema.map Prod.fst) :
    (insertJs schema k v).map Prod.fst = schema.map Prod.fst := by
  rw [insertJs, if_pos h, List.map_map]
  refine List.map_congr_left fun p _ => ?_
  by_cases hp : p.1 = k <;> simp [hp]

theorem insertIdx_cons (n : Nat) (k : String) (v : JValue)
    (p : String × JValue) (ps : List (String × JValue)) :
    insertIdx n k v (p :: ps) =
      match keyIndex? p.1 with
      | some m => if m < n then p :: insertIdx n k v ps else (k, v) :: p :: ps
      | none => (k, v) :: p :: ps := rfl

/-- `insertIdx` only splices the new entry in at one position: the original
entries keep their relative order around it. -/
theorem insertIdx_split (n : Nat) (k : String) (v : JValue)
    (schema : List (String × JValue)) :
    ∃ xs ys, schema = xs ++ ys ∧ insertIdx n k v schema = xs ++ (k, v) :: ys := by
  induction schema with
  | nil => exact ⟨[], [], rfl, rfl⟩
  | cons p ps ih =>
    cases h : keyIndex? p.1 with
    | some m =>
      by_cases hm : m < n
      · obtain ⟨xs, ys, h1, h2⟩ := ih
        refine ⟨p :: xs, ys, by rw [h1, List.cons_append], ?_⟩
        simp only [insertIdx_cons, h, if_pos hm, h2, List.cons_append]
      · refine ⟨[], p :: ps, rfl, ?_⟩
        simp only [insertIdx_cons, h, if_neg hm, List.nil_append]
    | none =>
      refine ⟨[], p :: ps, rfl, ?_⟩
      simp only [insertIdx_cons, h, List.nil_append]

theorem map_fst_insertJs_of_not_mem {schema : List (String × JValue)} {k : String}
    (v : JValue) (h : k ∉ schema.map Prod.fst) (hidx : keyIndex? k = none) :
    (insertJs schema k v).map Prod.fst = schema.map Prod.fst ++ [k] := by
  have heq : insertJs schema k v = schema ++ [(k, v)] := by
    rw [insertJs, if_neg h, hidx]
  rw [heq, List.map_append]
  rfl

theorem nodup_map_fst_insertJs {schema : List (String × JValue)} {k : String}
    (v : JValue) (h : (schema.map Prod.fst).Nodup) :
    ((insertJs schema k v).map Prod.fst).Nodup := by
  by_cases hk : k ∈ schema.map Prod.fst
  · rwa [map_fst_insertJs_of_mem v hk]
  · cases hidx : keyIndex? k with
    | none =>
      rw [map_fst_insertJs_of_not_mem v hk hidx]
      exact List.Nodup.append h (List.nodup_singleton k)
        (fun a ha hak => hk ((List.mem_singleton.mp hak) ▸ ha))
    | some n =>
      obtain ⟨xs, ys, hxy, hins⟩ := insertIdx_split n k v schema
      have heq : insertJs schema k v = xs ++ (k, v) :: ys := by
        rw [insertJs, if_neg hk, hidx]
        exact hins
      rw [heq, List.map_append, List.map_cons, List.nodup_middle,
        List.nodup_cons]
      constructor
      · rw [← List.map_append, ← hxy]
        exact hk
      · rw [← List.map_append, ← hxy]
        exact h

theorem lookupKey_eq_none_of_not_mem {schema : List (String × JValue)} {k : String}
    (h : k ∉ schema.map Prod.fst) : lookupKey k schema = none := by
  induction schema with
  | nil => rfl
  | cons p ps ih =>
    simp only [List.map_cons, List.mem_cons, not_or] at h
    rw [lookupKey, if_neg (fun hp => h.1 hp.symm)]
    exact ih h.2

theorem lookupKey_append (k : String) (xs ys : List (String × JValue)) :
    lookupKey k (xs ++ ys) =
      match lookupKey k xs with
      | some v => some v
      | none => lookupKey k ys := by
  induction xs with
  | nil => rfl
  | cons p ps ih =>
    by_cases hp : p.1 = k
    · simp [lookupKey, hp]
    · simp only [List.cons_append, lookupKey, if_neg hp]
      exact ih

theorem lookupKey_map_replace_ne {k k' : String} (v : JValue)
    (schema : List (String × JValue)) (h : k' ≠ k) :
    lookupKey k' (schema.map fun p => if p.1 = k then (k, v) else p) =
      lookupKey k' schema := by
  induction schema with
  | nil => rfl
  | cons p ps ih =>
    by_cases hp : p.1 = k
    · rw [List.map_cons, if_pos hp, lookupKey, lookupKey,
        if_neg (fun hk => h hk.symm), if_neg (fun hk => h (hp ▸ hk).symm)]
      exact ih
    · rw [List.map_cons, if_neg hp]
      by_cases hp' : p.1 = k'
      · simp [lookupKey, hp']
      · rw [lookupKey, lookupKey, if_neg hp', if_neg hp']
        exact ih

theorem lookupKey_insertJs (schema : List (String × JValue)) (k k' : String)
    (v : JValue) :
    lookupKey k' (insertJs schema k v) =
      if k' = k then some v else lookupKey k' schema := by
  by_cases hmem : k ∈ schema.map Prod.fst
  · rw [insertJs, if_pos hmem]
    by_cases hk : k' = k
    · subst hk
      induction schema with
      | nil => simp at hmem
      | cons p ps ih =>
        by_cases hp : p.1 = k'
        · simp [lookupKey, hp]
        · simp only [List.map_cons, List.mem_cons, hp] at hmem
          have hmem' : k' ∈ ps.map Prod.fst := by
            rcases hmem with h | h
            · exact absurd h.symm hp
            · exact h
          rw [List.map_cons, if_neg hp, lookupKey, lookupKey, if_neg hp, if_pos rfl]
          simpa using ih hmem'
    · rw [if_neg hk]
      exact lookupKey_map_replace_ne v schema hk
  · cases hidx : keyIndex? k with
    | none =>
      have heq : insertJs schema k v = schema ++ [(k, v)] := by
        rw [insertJs, if_neg hmem, hidx]
      rw [heq, lookupKey_append]
      by_cases hk : k' = k
      · subst hk
        rw [lookupKey_eq_none_of_not_mem hmem]
        simp [lookupKey]
      · cases h : lookupKey k' schema
        · simp [lookupKey, hk, h, Ne.symm hk]
        · simp [h, hk]
    | some n =>
      obtain ⟨xs, ys, hxy, hins⟩ := insertIdx_split n k v schema
      have heq : insertJs schema k v = xs ++ (k, v) :: ys := by
        rw [insertJs, if_neg hmem, hidx]
        exact hins
      have hxs : k ∉ xs.map Prod.fst := fun hx =>
        hmem (by rw [hxy, List.map_append]; exact List.mem_append_left _ hx)
      rw [heq, lookupKey_append]
      by_cases hk : k' = k
      · subst hk
        rw [lookupKey_eq_none_of_not_mem hxs]
        simp [lookupKey]
      · rw [if_neg hk, hxy, lookupKey_append]
        cases hlx : lookupKey k' xs with
        | some w => rfl
        | none => simp [lookupKey, Ne.symm hk]

theorem mem_map_fst_of_lookupKey_eq_some {schema : List (String × JValue)}
    {k : String} {v : JValue} (h : lookupKey k schema = some v) :
    k ∈ schema.map Prod.fst := by
  induction schema with
  | nil => simp [lookupKey] at h
  | cons p ps ih =>
    by_cases hp : p.1 = k
    · simp [hp]
    · rw [lookupKey, if_neg hp] at h
      simp [ih h]

/-! ### Lemmas about the projector -/

theorem projectStep_mk (schema : List (String × JValue)) (i : Nat) (k t : String)
    (cs : List Field) :
    projectStep schema (Field.mk i k t cs) =
      if k = "" then schema
      else match t with
        | "string" => insertJs schema k (JValue.str "String (default)")
        | "number" => insertJs schema k (JValue.num 0)
        | "nested" => insertJs schema k (JValue.obj (generateSchemaAux [] cs))
        | _ => schema := rfl

theorem projectStep_eq (schema : List (String × JValue)) (f : Field) :
    projectStep schema f =
      if f.keyName = "" then schema
      else if f.type = "string" then
        insertJs schema f.keyName (JValue.str "String (default)")
      else if f.type = "number" then insertJs schema f.keyName (JValue.num 0)
      else if f.type = "nested" then
        insertJs schema f.keyName (JValue.obj (generateSchema f.children))
      else schema := by
  cases f with
  | mk i k t cs =>
    rw [projectStep_mk]
    simp only [Field.keyName_mk, Field.type_mk, Field.children_mk, generateSchema]
    by_cases hk : k = ""
    · simp [hk]
    · simp only [if_neg hk]
      split
      next => simp
      next => simp
      next => simp
      next h1 h2 h3 => rw [if_neg h1, if_neg h2, if_neg h3]

theorem projectStep_eq_fieldValue (schema : List (String × JValue)) (f : Field) :
    projectStep schema f =
      match fieldValue f with
      | none => schema
      | some v => insertJs schema f.keyName v := by
  rw [projectStep_eq, fieldValue]
  by_cases hk : f.keyName = ""
  · simp [hk]
  · simp only [if_neg hk]
    by_cases h1 : f.type = "string"
    · simp [h1]
    · simp only [if_neg h1]
      by_cases h2 : f.type = "number"
      · simp [h2]
      · simp only [if_neg h2]
        by_cases h3 : f.type = "nested"
        · simp [h3]
        · simp [h3]

theorem generateSchemaAux_append (acc : List (String × JValue))
    (l1 l2 : List Field) :
    generateSchemaAux acc (l1 ++ l2) =
      generateSchemaAux (generateSchemaAux acc l1) l2 := by
  induction l1 generalizing acc with
  | nil => rfl
  | cons f fs ih => rw [List.cons_append, generateSchemaAux, generateSchemaAux, ih]

theorem map_fst_generateSchemaAux (fields : List Field) :
    ∀ acc : List (String × JValue), (emittedKeys fields).Nodup →
      (∀ k ∈ emittedKeys fields, keyIndex? k = none) →
      (∀ k ∈ emittedKeys fields, k ∉ acc.map Prod.fst) →
      (generateSchemaAux acc fields).map Prod.fst =
        acc.map Prod.fst ++ emittedKeys fields := by
  induction fields with
  | nil => intro acc _ _ _; simp [generateSchemaAux, emittedKeys]
  | cons f fs ih =>
    intro acc hnodup hplain hfresh
    rw [generateSchemaAux, projectStep_eq_fieldValue]
    cases hv : fieldValue f with
    | none =>
      rw [emittedKeys, hv] at hnodup hplain hfresh ⊢
      simp only [Option.isSome_none, Bool.false_eq_true, if_false]
        at hnodup hplain hfresh ⊢
      exact ih acc hnodup hplain hfresh
    | some v =>
      rw [emittedKeys, hv] at hnodup hplain hfresh ⊢
      simp only [Option.isSome_some, if_true] at hnodup hplain hfresh ⊢
      have hkey : f.keyName ∉ acc.map Prod.fst :=
        hfresh f.keyName (List.mem_cons_self _ _)
      have hkidx : keyIndex? f.keyName = none :=
        hplain f.keyName (List.mem_cons_self _ _)
      rw [ih (insertJs acc f.keyName v) (List.nodup_cons.mp hnodup).2
          (fun k hk => hplain k (List.mem_cons_of_mem _ hk)) ?fresh,
        map_fst_insertJs_of_not_mem v hkey hkidx, List.append_assoc,
        List.singleton_append]
      case fresh =>
        intro k hk
        rw [map_fst_insertJs_of_not_mem v hkey hkidx, List.mem_append,
          List.mem_singleton]
        rintro (hacc | hek)
        · exact hfresh k (List.mem_cons_of_mem _ hk) hacc
        · exact (List.nodup_cons.mp hnodup).1 (hek ▸ hk)

theorem nodup_map_fst_generateSchemaAux (fields : List Field) :
    ∀ acc : List (String × JValue), (acc.map Prod.fst).Nodup →
      ((generateSchemaAux acc fields).map Prod.fst).Nodup := by
  induction fields with
  | nil => intro acc h; exact h
  | cons f fs ih =>
    intro acc h
    rw [generateSchemaAux, projectStep_eq_fieldValue]
    cases fieldValue f with
    | none => exact ih acc h
    | some v => exact ih _ (nodup_map_fst_insertJs v h)

theorem lookupKey_generateSchemaAux (k : String) (fields : List Field) :
    ∀ acc : List (String × JValue),
      lookupKey k (generateSchemaAux acc fields) =
        match lastEmitted k fields with
        | some v => some v
        | none => lookupKey k acc := by
  induction fields with
  | nil => intro acc; rfl
  | cons f fs ih =>
    intro acc
    rw [generateSchemaAux, projectStep_eq_fieldValue, ih, lastEmitted]
    cases lastEmitted k fs with
    | some w => rfl
    | none =>
      cases hv : fieldValue f with
      | none =>
        by_cases hk : f.keyName = k
        · simp [hk, hv]
        · simp [hk]
      | some v =>
        rw [lookupKey_insertJs]
        by_cases hk : f.keyName = k
        · simp [hk, hv]
        · simp [hk, Ne.symm hk]

/-! ### Lemmas about ids in the forest -/

theorem allIds_append (l1 l2 : List Field) :
    allIds (l1 ++ l2) = allIds l1 ++ allIds l2 := by
  induction l1 with
  | nil => rfl
  | cons f fs ih => rw [List.cons_append, allIds, allIds, ih, List.append_assoc]

theorem id_mem_allIds {f : Field} {l : List Field} (h : f ∈ l) :
    f.id ∈ allIds l := by
  induction l with
  | nil => cases h
  | cons g gs ih =>
    rw [allIds, List.mem_append]
    rcases List.mem_cons.mp h with h | h
    · subst h
      cases f with
      | mk i k t cs => exact Or.inl (List.mem_cons_self _ _)
    · exact Or.inr (ih h)

theorem map_id_of_eq {α : Type} {f : α → α} {l : List α}
    (h : ∀ a ∈ l, f a = a) : l.map f = l := by
  induction l with
  | nil => rfl
  | cons a as ih =>
    rw [List.map_cons, h a (List.mem_cons_self a as),
      ih fun b hb => h b (List.mem_cons_of_mem a hb)]

/-- Replacing by id in one sequence (the common core of `updateField` and
`handleChildUpdate`): when the ids in the sequence are pairwise distinct and
position `n` holds the node with the target id, the map rewrites exactly
position `n` and leaves every other position unchanged. -/
theorem replaceById_getElem? (l : List Field) (u : Field) (n : Nat) (f : Field)
    (hnodup : (l.map Field.id).Nodup) (hn : l[n]? = some f) (hid : f.id = u.id) :
    (l.map fun c => if c.id = u.id then u else c)[n]? = some u ∧
      ∀ m, m ≠ n → (l.map fun c => if c.id = u.id then u else c)[m]? = l[m]? := by
  constructor
  · rw [List.getElem?_map, hn]
    simp [hid]
  · intro m hm
    rw [List.getElem?_map]
    cases hmel : l[m]? with
    | none => rfl
    | some f' =>
      have hne : f'.id ≠ u.id := by
        intro heq
        apply hm
        have h₀ : m < (l.map Field.id).length := by
          rw [List.length_map]
          exact (List.getElem?_eq_some_iff.mp hmel).1
        refine List.getElem?_inj h₀ hnodup ?_
        rw [List.getElem?_map, List.getElem?_map, hmel, hn]
        simp [heq, hid]
      simp [hne]

/-- The initial `useState` forest of the `SchemaBuilder` component
(ids 1–7: a nested `user` tree and a root `productId`). -/
def initialFields : List Field :=
  [Field.mk 1 "user" "nested"
    [Field.mk 2 "name" "string" [],
     Field.mk 3 "age" "number" [],
     Field.mk 4 "address" "nested"
       [Field.mk 5 "street" "string" [],
        Field.mk 6 "zip" "number" []]],
   Field.mk 7 "productId" "string" []]

/-! ### Claims -/

/-- C6 (counterexample): the claim says a field whose `keyName` is empty or
blank never appears in the projected output.  The source only tests JS
falsiness (`!field.keyName`), which holds for `""` alone: a blank,
whitespace-only name such as `" "` is emitted, so its key does appear. -/
theorem blank_keyName_emitted_cex :
    (generateSchema [Field.mk 1 " " "string" []]).map Prod.fst = [" "] ∧
    (" " : String) ≠ "" :=
  ⟨rfl, by decide⟩

/-- C6 (amended): a field whose `keyName` is exactly the empty string emits
no key, regardless of the field's type; deleting it from the sequence does
not change the projection.  (Whitespace-only names are not skipped.) -/
theorem empty_keyName_skipped (l1 l2 : List Field) (f : Field)
    (h : f.keyName = "") :
    generateSchema (l1 ++ f :: l2) = generateSchema (l1 ++ l2) := by
  rw [generateSchema, generateSchema, generateSchemaAux_append,
    generateSchemaAux_append, generateSchemaAux, projectStep_eq, if_pos h]

/-- Witness for `empty_keyName_skipped` at a concrete forest: an unnamed
nested field (with children) contributes nothing. -/
theorem empty_keyName_skipped_witness :
    generateSchema ([Field.mk 1 "a" "string" []] ++
        Field.mk 2 "" "nested" [Field.mk 3 "x" "string" []] ::
          [Field.mk 4 "b" "number" []]) =
      generateSchema ([Field.mk 1 "a" "string" []] ++ [Field.mk 4 "b" "number" []]) :=
  empty_keyName_skipped [Field.mk 1 "a" "string" []] [Field.mk 4 "b" "number" []]
    (Field.mk 2 "" "nested" [Field.mk 3 "x" "string" []]) rfl

/-- C7: a field whose type is outside {"string", "number", "nested"} emits
nothing (the switch's `default` arm): the projection is as if the field were
absent.  The projector is total by construction — `generateSchema` is a total
Lean function over all field sequences, including ones holding unrecognized
type strings. -/
theorem unknown_type_skipped (l1 l2 : List Field) (f : Field)
    (h1 : f.type ≠ "string") (h2 : f.type ≠ "number") (h3 : f.type ≠ "nested") :
    generateSchema (l1 ++ f :: l2) = generateSchema (l1 ++ l2) := by
  have hstep : ∀ acc, projectStep acc f = acc := by
    intro acc
    rw [projectStep_eq]
    by_cases hk : f.keyName = "" <;> simp [hk, h1, h2, h3]
  rw [generateSchema, generateSchema, generateSchemaAux_append,
    generateSchemaAux_append, generateSchemaAux, hstep]

/-- Witness for `unknown_type_skipped`: a named field of type "boolean" is
excluded from the output. -/
theorem unknown_type_skipped_witness :
    generateSchema ([Field.mk 1 "a" "string" []] ++
        Field.mk 2 "flag" "boolean" [] :: [Field.mk 3 "b" "number" []]) =
      generateSchema ([Field.mk 1 "a" "string" []] ++ [Field.mk 3 "b" "number" []]) :=
  unknown_type_skipped [Field.mk 1 "a" "string" []] [Field.mk 3 "b" "number" []]
    (Field.mk 2 "flag" "boolean" []) (by decide) (by decide) (by decide)

/-- C8: a field with non-empty `keyName` appended to a sequence binds its key
in the projection to "String (default)" when its type is "string", to `0`
when "number", and to the recursive projection of its children when "nested";
with no children the binding is the empty object. -/
theorem typed_emission (fields : List Field) (f : Field) (k : String)
    (hk : f.keyName = k) (hne : k ≠ "") :
    (f.type = "string" →
      lookupKey k (generateSchema (fields ++ [f])) =
        some (JValue.str "String (default)")) ∧
    (f.type = "number" →
      lookupKey k (generateSchema (fields ++ [f])) = some (JValue.num 0)) ∧
    (f.type = "nested" →
      lookupKey k (generateSchema (fields ++ [f])) =
        some (JValue.obj (generateSchema f.children))) ∧
    (f.type = "nested" → f.children = [] →
      lookupKey k (generateSchema (fields ++ [f])) = some (JValue.obj [])) := by
  have hkne : ¬f.keyName = "" := by rw [hk]; exact hne
  have hbase : generateSchema (fields ++ [f]) =
      projectStep (generateSchema fields) f := by
    rw [generateSchema, generateSchemaAux_append, generateSchemaAux,
      generateSchemaAux, generateSchema]
  refine ⟨?_, ?_, ?_, ?_⟩
  · intro ht
    rw [hbase, projectStep_eq, if_neg hkne, if_pos ht, hk, lookupKey_insertJs,
      if_pos rfl]
  · intro ht
    rw [hbase, projectStep_eq, if_neg hkne, if_neg (by rw [ht]; decide),
      if_pos ht, hk, lookupKey_insertJs, if_pos rfl]
  · intro ht
    rw [hbase, projectStep_eq, if_neg hkne, if_neg (by rw [ht]; decide),
      if_neg (by rw [ht]; decide), if_pos ht, hk, lookupKey_insertJs, if_pos rfl]
  · intro ht hc
    rw [hbase, projectStep_eq, if_neg hkne, if_neg (by rw [ht]; decide),
      if_neg (by rw [ht]; decide), if_pos ht, hk, lookupKey_insertJs, if_pos rfl,
      hc]
    rfl

/-- Witness for `typed_emission`: the spec's nesting example — a nested
`user` with children `name` (string) and `age` (number) projects to
`user ↦ {name ↦ "String (default)", age ↦ 0}`. -/
theorem typed_emission_witness :
    lookupKey "user" (generateSchema ([] ++
        [Field.mk 1 "user" "nested"
          [Field.mk 2 "name" "string" [], Field.mk 3 "age" "number" []]])) =
      some (JValue.obj
        (generateSchema
          [Field.mk 2 "name" "string" [], Field.mk 3 "age" "number" []])) ∧
    generateSchema [Field.mk 2 "name" "string" [], Field.mk 3 "age" "number" []] =
      [("name", JValue.str "String (default)"), ("age", JValue.num 0)] :=
  ⟨((typed_emission []
      (Field.mk 1 "user" "nested"
        [Field.mk 2 "name" "string" [], Field.mk 3 "age" "number" []])
      "user" rfl (by decide)).2.2.1 rfl), rfl⟩

/-- C9: the projector is deterministic — it is a pure function of the tree
snapshot alone (the embedding needs no state to express it), so any two
calls on identical snapshots yield equal (hence deeply equal) objects; the
snapshot, being a value, is not mutated. -/
theorem generateSchema_deterministic (t1 t2 : List Field) (h : t1 = t2) :
    generateSchema t1 = generateSchema t2 := by rw [h]

/-- Witness for `generateSchema_deterministic` at the component's initial
forest. -/
theorem generateSchema_deterministic_witness :
    generateSchema initialFields = generateSchema initialFields :=
  generateSchema_deterministic initialFields initialFields rfl

/-- C3 (counterexample): the claim says the projected keys appear in exactly
the order of the fields that produced them.  It fails in two ways.  With a
duplicated name the JS object keeps one key per name at its first position
while the value comes from the last producer: fields named b, a, b emit keys
b, a, b but the object's keys are b, a, with b bound to the last ("number")
field's value.  And even with distinct names, ECMAScript enumerates an
array-index-like key such as "1" ahead of every plain string key: fields
named a then "1" project to key order "1", a — not field order. -/
theorem key_order_duplicate_cex :
    (generateSchema [Field.mk 1 "b" "string" [], Field.mk 2 "a" "string" [],
        Field.mk 3 "b" "number" []]).map Prod.fst = ["b", "a"] ∧
    emittedKeys [Field.mk 1 "b" "string" [], Field.mk 2 "a" "string" [],
        Field.mk 3 "b" "number" []] = ["b", "a", "b"] ∧
    (["b", "a"] : List String) ≠ ["b", "a", "b"] ∧
    lookupKey "b" (generateSchema [Field.mk 1 "b" "string" [],
        Field.mk 2 "a" "string" [], Field.mk 3 "b" "number" []]) =
      some (JValue.num 0) ∧
    (generateSchema [Field.mk 1 "a" "string" [],
        Field.mk 2 "1" "string" []]).map Prod.fst = ["1", "a"] ∧
    emittedKeys [Field.mk 1 "a" "string" [], Field.mk 2 "1" "string" []] =
      ["a", "1"] ∧
    (["1", "a"] : List String) ≠ ["a", "1"] :=
  ⟨rfl, rfl, by decide, rfl, rfl, rfl, by decide⟩

/-- C3 (amended): restricted to sequences whose emitting fields carry
pairwise-distinct key names, none of which is an array-index-like string (a
canonical numeric string below 2^32 - 1), the projected object's keys are
exactly those key names in field-sequence order — in particular fields named
a, b, c project to key order a, b, c.  (With duplicated names a key appears
once, at its first position; array-index-like names are enumerated first, in
ascending numeric order.) -/
theorem generateSchema_key_order (fields : List Field)
    (hnodup : (emittedKeys fields).Nodup)
    (hplain : ∀ k ∈ emittedKeys fields, keyIndex? k = none) :
    (generateSchema fields).map Prod.fst = emittedKeys fields := by
  have h := map_fst_generateSchemaAux fields [] hnodup hplain (by simp)
  simpa [generateSchema] using h

/-- Witness for `generateSchema_key_order`: fields named a, b, c project to
keys a, b, c in that order. -/
theorem generateSchema_key_order_witness :
    (generateSchema [Field.mk 1 "a" "string" [], Field.mk 2 "b" "number" [],
        Field.mk 3 "c" "nested" []]).map Prod.fst = ["a", "b", "c"] :=
  (generateSchema_key_order
    [Field.mk 1 "a" "string" [], Field.mk 2 "b" "number" [],
      Field.mk 3 "c" "nested" []] (by decide) (by decide)).trans rfl

/-- C10: when several fields share one non-empty key name, the projection has
exactly one entry for that key, and its value is the one contributed by the
last emitting field in sequence order (later fields overwrite earlier
ones). -/
theorem duplicate_keys_last_wins (fields : List Field) (k : String) (v : JValue)
    (_hdup : 2 ≤ (fields.filter (fun f => f.keyName = k)).length)
    (hlast : lastEmitted k fields = some v) :
    lookupKey k (generateSchema fields) = some v ∧
    ((generateSchema fields).map Prod.fst).count k = 1 := by
  have hl : lookupKey k (generateSchema fields) = some v := by
    have h := lookupKey_generateSchemaAux k fields []
    rw [hlast] at h
    exact h
  refine ⟨hl, ?_⟩
  have hnodup : ((generateSchema fields).map Prod.fst).Nodup :=
    nodup_map_fst_generateSchemaAux fields [] (by simp)
  exact List.count_eq_one_of_mem hnodup (mem_map_fst_of_lookupKey_eq_some hl)

/-- Witness for `duplicate_keys_last_wins`: two fields named "a" — a string
then a number — project to the single entry `a ↦ 0`. -/
theorem duplicate_keys_last_wins_witness :
    lookupKey "a" (generateSchema
        [Field.mk 1 "a" "string" [], Field.mk 2 "a" "number" []]) =
      some (JValue.num 0) ∧
    ((generateSchema [Field.mk 1 "a" "string" [],
        Field.mk 2 "a" "number" []]).map Prod.fst).count "a" = 1 :=
  duplicate_keys_last_wins
    [Field.mk 1 "a" "string" [], Field.mk 2 "a" "number" []] "a" (JValue.num 0)
    (by decide) rfl

/-- C1 (counterexample): the claim says `updateField(u)` replaces the node
with `u.id` at any nesting depth.  The source's `updateField` maps only over
the root sequence: for a node at depth 1 the call is a no-op and the node is
not replaced. -/
theorem updateField_deep_noop_cex :
    updateField [Field.mk 1 "user" "nested" [Field.mk 2 "name" "string" []]]
        (Field.mk 2 "renamed" "string" []) =
      [Field.mk 1 "user" "nested" [Field.mk 2 "name" "string" []]] ∧
    findById [Field.mk 1 "user" "nested" [Field.mk 2 "name" "string" []]] 2 =
      some (Field.mk 2 "name" "string" []) ∧
    Field.mk 2 "name" "string" [] ≠ Field.mk 2 "renamed" "string" [] := by
  refine ⟨rfl, rfl, fun h => ?_⟩
  injection h with h1 h2 h3 h4
  exact absurd h2 (by decide)

/-- C1 (amended): `updateField(u)` replaces exactly the root-level field
whose id equals `u.id`, at the same position, leaving every other root field
unchanged; when `u.id` occurs at no root-level field — even if it occurs
deeper in the forest — the forest is unchanged.  (Deeper nodes are reached
only through the editor's per-ancestor `handleChildUpdate` chain; see the
deep-update theorem for C5.) -/
theorem updateField_root_replacement (fields : List Field) (u : Field) :
    ((fields.map Field.id).Nodup →
      ∀ (n : Nat) (f : Field), fields[n]? = some f → f.id = u.id →
        (updateField fields u)[n]? = some u ∧
        ∀ m, m ≠ n → (updateField fields u)[m]? = fields[m]?) ∧
    (u.id ∉ fields.map Field.id → updateField fields u = fields) := by
  constructor
  · intro hnodup n f hn hid
    exact replaceById_getElem? fields u n f hnodup hn hid
  · intro hmem
    rw [updateField]
    refine map_id_of_eq fun g hg => if_neg fun hgid => ?_
    exact hmem (hgid ▸ List.mem_map_of_mem Field.id hg)

/-- Witness for `updateField_root_replacement`: updating root field 1 in a
two-field forest rewrites position 0 and leaves position 1 untouched. -/
theorem updateField_root_replacement_witness :
    (updateField [Field.mk 1 "a" "string" [], Field.mk 7 "b" "string" []]
        (Field.mk 1 "x" "number" []))[0]? = some (Field.mk 1 "x" "number" []) ∧
    (updateField [Field.mk 1 "a" "string" [], Field.mk 7 "b" "string" []]
        (Field.mk 1 "x" "number" []))[1]? = some (Field.mk 7 "b" "string" []) := by
  have h := (updateField_root_replacement
      [Field.mk 1 "a" "string" [], Field.mk 7 "b" "string" []]
      (Field.mk 1 "x" "number" [])).1 (by decide) 0
      (Field.mk 1 "a" "string" []) rfl rfl
  exact ⟨h.1, (h.2 1 (by decide)).trans rfl⟩

/-- C2 (counterexample): the claim says `removeField(fieldId)` removes the
node with that id wherever it occurs in the forest.  The source's
`removeField` filters only the root sequence: an id present only at depth 1
is not removed (the call is a no-op even though the id exists). -/
theorem removeField_deep_noop_cex :
    removeField [Field.mk 1 "user" "nested" [Field.mk 2 "name" "string" []]] 2 =
      [Field.mk 1 "user" "nested" [Field.mk 2 "name" "string" []]] ∧
    2 ∈ allIds [Field.mk 1 "user" "nested" [Field.mk 2 "name" "string" []]] :=
  ⟨rfl, by decide⟩

/-- C2 (amended): `removeField(fieldId)` removes exactly the root-level field
with that id, together with its entire subtree: when ids are globally unique,
no id of the removed subtree remains anywhere in the resulting forest.  An id
with no root-level occurrence — even one present deeper — leaves the forest
unchanged (no-op, no error). -/
theorem removeField_root_removal (fields l1 l2 : List Field) (f : Field)
    (i : Nat) :
    (fields = l1 ++ f :: l2 → (allIds fields).Nodup → f.id = i →
      removeField fields i = l1 ++ l2 ∧
      ∀ j ∈ fieldIds f, j ∉ allIds (l1 ++ l2)) ∧
    (i ∉ fields.map Field.id → removeField fields i = fields) := by
  constructor
  · rintro rfl hnodup hfi
    have hids : allIds (l1 ++ f :: l2) =
        allIds l1 ++ (fieldIds f ++ allIds l2) := by
      rw [allIds_append, allIds]
    rw [hids] at hnodup
    have hd1 : (allIds l1).Disjoint (fieldIds f ++ allIds l2) :=
      (List.nodup_append.mp hnodup).2.2
    have hd2 : (fieldIds f).Disjoint (allIds l2) :=
      (List.nodup_append.mp (List.nodup_append.mp hnodup).2.1).2.2
    have hfmem : f.id ∈ fieldIds f := by
      cases f with
      | mk a k t cs => exact List.mem_cons_self _ _
    have hl1 : ∀ g ∈ l1, g.id ≠ i := by
      intro g hg hgi
      exact hd1 (id_mem_allIds hg)
        (List.mem_append_left _ ((hgi.trans hfi.symm) ▸ hfmem))
    have hl2 : ∀ g ∈ l2, g.id ≠ i := by
      intro g hg hgi
      exact hd2 ((hgi.trans hfi.symm) ▸ hfmem) (id_mem_allIds hg)
    constructor
    · rw [removeField, List.filter_append, List.filter_cons,
        if_neg (by simp [hfi]),
        List.filter_eq_self.mpr (fun g hg => by simpa using hl1 g hg),
        List.filter_eq_self.mpr (fun g hg => by simpa using hl2 g hg)]
    · intro j hj
      rw [allIds_append, List.mem_append]
      rintro (hmem | hmem)
      · exact hd1 hmem (List.mem_append_left _ hj)
      · exact hd2 hj hmem
  · intro hmem
    rw [removeField]
    refine List.filter_eq_self.mpr fun g hg => ?_
    have hne : g.id ≠ i := fun hgi =>
      hmem (hgi ▸ List.mem_map_of_mem Field.id hg)
    simpa using hne

/-- Witness for `removeField_root_removal`: removing root field 5 deletes it
and its child 6 entirely, and an absent id (9) is a no-op. -/
theorem removeField_root_removal_witness :
    removeField [Field.mk 5 "user" "nested" [Field.mk 6 "name" "string" []],
        Field.mk 7 "productId" "string" []] 5 =
      [Field.mk 7 "productId" "string" []] ∧
    6 ∉ allIds [Field.mk 7 "productId" "string" []] ∧
    removeField [Field.mk 7 "productId" "string" []] 9 =
      [Field.mk 7 "productId" "string" []] := by
  have h := (removeField_root_removal
      [Field.mk 5 "user" "nested" [Field.mk 6 "name" "string" []],
        Field.mk 7 "productId" "string" []]
      [] [Field.mk 7 "productId" "string" []]
      (Field.mk 5 "user" "nested" [Field.mk 6 "name" "string" []]) 5).1
      rfl (by decide) rfl
  have h2 := (removeField_root_removal [Field.mk 7 "productId" "string" []]
      [] [] (Field.mk 7 "productId" "string" []) 9).2 (by decide)
  exact ⟨h.1, h.2 6 (by decide), h2⟩

/-- C4 (counterexample): the claim says every `createField` call returns an
id distinct from every id already in the tree.  The source's id is
`Date.now() + Math.random()`, a sum of ambient clock and randomness with no
check against existing ids: a call whose clock/random pair sums to an
existing id (here 3 + 2 against a tree already holding id 5) collides.  The
default name, type and children do hold. -/
theorem createDefaultField_collision_cex :
    (createDefaultField 3 2).id ∈ allIds [Field.mk 5 "x" "string" []] ∧
    (createDefaultField 3 2).keyName = "" ∧
    (createDefaultField 3 2).type = "string" ∧
    (createDefaultField 3 2).children = [] :=
  ⟨by decide, rfl, rfl, rfl⟩

/-- C4 (amended): `createDefaultField` returns a field with type "string",
empty `keyName`, empty `children`, and id equal to the sum of the ambient
clock reading and random draw; that id avoids the ids already in the forest
exactly when the sum does — uniqueness is not guaranteed by the generator
itself. -/
theorem createDefaultField_spec (now rand : Nat) (fields : List Field) :
    createDefaultField now rand = Field.mk (now + rand) "" "string" [] ∧
    ((createDefaultField now rand).id ∉ allIds fields ↔
      now + rand ∉ allIds fields) :=
  ⟨rfl, Iff.rfl⟩

/-- C5: deep-update isolation.  For a forest with root fields A (nested,
holding child X at position j) and B, the editor's update of X to Y — the
`handleChildUpdate` of A composed with the root `updateField` — replaces X by
Y at the same position inside A, rebuilds A (a different node whenever
Y ≠ X) preserving its own id, name and type, and leaves B and every sibling
of X unchanged. -/
theorem deep_update_isolation (A B X Y : Field) (j : Nat)
    (_hA : A.type = "nested") (hAB : A.id ≠ B.id)
    (hnodup : (A.children.map Field.id).Nodup)
    (hj : A.children[j]? = some X) (hid : Y.id = X.id) (hne : Y ≠ X) :
    updateField [A, B] (handleChildUpdate A Y) = [handleChildUpdate A Y, B] ∧
    (handleChildUpdate A Y).id = A.id ∧
    (handleChildUpdate A Y).keyName = A.keyName ∧
    (handleChildUpdate A Y).type = A.type ∧
    (handleChildUpdate A Y).children[j]? = some Y ∧
    (∀ m, m ≠ j → (handleChildUpdate A Y).children[m]? = A.children[m]?) ∧
    handleChildUpdate A Y ≠ A := by
  have hrepl := replaceById_getElem? A.children Y j X hnodup hj hid.symm
  have hchildren : (handleChildUpdate A Y).children =
      A.children.map fun c => if c.id = Y.id then Y else c := by
    rw [handleChildUpdate, Field.children_withChildren]
  have hAid : (handleChildUpdate A Y).id = A.id := by
    rw [handleChildUpdate, Field.id_withChildren]
  have hBid : ¬B.id = (handleChildUpdate A Y).id := by
    rw [hAid]
    exact fun h => hAB h.symm
  have hBA : ¬B.id = A.id := by rw [hAid] at hBid; exact hBid
  refine ⟨?_, hAid, ?_, ?_, ?_, ?_, ?_⟩
  · simp [updateField, hAid, hBA]
  · rw [handleChildUpdate, Field.keyName_withChildren]
  · rw [handleChildUpdate, Field.type_withChildren]
  · rw [hchildren]
    exact hrepl.1
  · intro m hm
    rw [hchildren]
    exact hrepl.2 m hm
  · intro h
    have hc := congrArg Field.children h
    rw [hchildren] at hc
    have hY := hrepl.1
    rw [hc, hj] at hY
    exact hne (Option.some.inj hY).symm

/-- Witness for `deep_update_isolation`: renaming child X (id 2) of root A
(id 1) to Y leaves root B (id 7) in place and rewrites X's slot. -/
theorem deep_update_isolation_witness :
    updateField [Field.mk 1 "A" "nested" [Field.mk 2 "X" "string" []],
        Field.mk 7 "B" "string" []]
        (handleChildUpdate (Field.mk 1 "A" "nested" [Field.mk 2 "X" "string" []])
          (Field.mk 2 "Y" "string" [])) =
      [handleChildUpdate (Field.mk 1 "A" "nested" [Field.mk 2 "X" "string" []])
          (Field.mk 2 "Y" "string" []),
        Field.mk 7 "B" "string" []] ∧
    handleChildUpdate (Field.mk 1 "A" "nested" [Field.mk 2 "X" "string" []])
        (Field.mk 2 "Y" "string" []) ≠
      Field.mk 1 "A" "nested" [Field.mk 2 "X" "string" []] := by
  have h := deep_update_isolation
      (Field.mk 1 "A" "nested" [Field.mk 2 "X" "string" []])
      (Field.mk 7 "B" "string" [])
      (Field.mk 2 "X" "string" []) (Field.mk 2 "Y" "string" []) 0
      rfl (by decide) (by decide) rfl rfl
      (fun h => by injection h with h1 h2 h3 h4; exact absurd h2 (by decide))
  exact ⟨h.1, h.2.2.2.2.2.2⟩

end SchemaBuilder
